import Mathlib

/-!
Shallow embedding of the exact-arithmetic core of `src/node.js` (Shamir secret
reconstruction): `gcd`, the `Rational` class, `parseBigInt`, and
`computeConstantTerm` (Lagrange interpolation at x = 0), together with proofs
of the specified properties.

JavaScript `BigInt` values are modelled as `Int`; thrown JavaScript errors are
modelled with the `Except Err` monad, `Err` being the error taxonomy of the
specification plus the JavaScript `TypeError` raised when destructuring
`undefined` (reachable only when fewer than `k` points are supplied).
-/

deriving instance DecidableEq for Except

/-- Error taxonomy of the program (spec section 7), plus the JavaScript
`TypeError` for out-of-range point access. -/
inductive Err : Type where
  | DivisionByZero
  | NonIntegralResult
  | InvalidDigit
  | DigitOutOfRange
  | TypeError
deriving DecidableEq

/-- Body of the Euclidean loop of `gcd` (src/node.js lines 8-12): while b ≠ 0,
(a, b) := (b, a % b); return a. The first argument bounds the number of
iterations so that the recursion is structural; since `b` strictly decreases
across an iteration, an initial bound of `b` is always sufficient
(see `gcdLoop_eq_gcd`). -/
def gcdLoop : Nat → Nat → Nat → Nat
  | _, a, 0 => a
  | 0, a, _ + 1 => a
  | bound + 1, a, b + 1 => gcdLoop bound (b + 1) (a % (b + 1))

/-- Model of `gcd` (src/node.js lines 5-14): both arguments are replaced by
their absolute values, then the Euclidean loop runs. -/
def gcdBig (a b : Int) : Int :=
  ((gcdLoop b.natAbs a.natAbs b.natAbs : Nat) : Int)

/-- The `Rational` class (src/node.js lines 17-55): an exact fraction with
BigInt numerator `n` and denominator `d`. -/
structure Rational : Type where
  n : Int
  d : Int
deriving DecidableEq

/-- Constructor of `Rational` (src/node.js lines 18-30): rejects denominator 0,
normalizes the sign into the numerator, divides both components by their gcd.
JavaScript BigInt division truncates toward zero, hence `Int.tdiv` (both
divisions are exact, the divisor being a common divisor of the dividends). -/
def Rational.make (numerator denominator : Int) : Except Err Rational :=
  if denominator = 0 then .error .DivisionByZero
  else
    let n1 := if denominator < 0 then -numerator else numerator
    let d1 := if denominator < 0 then -denominator else denominator
    let g := gcdBig n1 d1
    .ok ⟨n1.tdiv g, d1.tdiv g⟩

/-- Method `add` of `Rational` (src/node.js lines 33-38):
a/b + c/d = (ad + cb) / bd, renormalized by the constructor. -/
def Rational.add (a r : Rational) : Except Err Rational :=
  Rational.make (a.n * r.d + r.n * a.d) (a.d * r.d)

/-- Method `multiply` of `Rational` (src/node.js lines 41-46):
(a/b) * (c/d) = ac / bd, renormalized by the constructor. -/
def Rational.multiply (a r : Rational) : Except Err Rational :=
  Rational.make (a.n * r.n) (a.d * r.d)

/-- Method `toBigInt` of `Rational` (src/node.js lines 49-54): fails unless
the stored denominator is 1, otherwise returns the numerator. -/
def Rational.toBigInt (a : Rational) : Except Err Int :=
  if a.d ≠ 1 then .error .NonIntegralResult else .ok a.n

/-- Invariant of every constructed `Rational` (spec section 3): positive
denominator and fully reduced, stated with the program's own `gcdBig`. -/
def Rational.Valid (a : Rational) : Prop :=
  0 < a.d ∧ gcdBig a.n a.d = 1

instance (a : Rational) : Decidable a.Valid :=
  inferInstanceAs (Decidable (_ ∧ _))

/-- Value of a `Rational` as a rational number. -/
def Rational.toRat (a : Rational) : ℚ :=
  (a.n : ℚ) / (a.d : ℚ)

/-- Digit value of one (already lowercased) character (src/node.js
lines 62-69): `'0'`-`'9'` map to 0-9, `'a'`-`'z'` map to 10-35, anything
else is invalid. `Char.toLower` matches JavaScript `toLowerCase` on the
ASCII digit strings this program is specified for (spec sections 2, 4.1);
the source lowercases the whole string up front, which is the same as
lowercasing each character as it is visited. -/
def digitOfChar (c : Char) : Option Nat :=
  let ch := c.toLower
  if '0' ≤ ch ∧ ch ≤ '9' then some (ch.toNat - 48)
  else if 'a' ≤ ch ∧ ch ≤ 'z' then some (ch.toNat - 87)
  else none

/-- Loop of `parseBigInt` (src/node.js lines 61-74): Horner accumulation with
per-character validity and range checks. -/
def parseLoop (b : Nat) : List Char → Nat → Except Err Nat
  | [], result => .ok result
  | ch :: rest, result =>
    match digitOfChar ch with
    | none => .error .InvalidDigit
    | some digit =>
      if digit ≥ b then .error .DigitOutOfRange
      else parseLoop b rest (result * b + digit)

/-- Function `parseBigInt` (src/node.js lines 58-76). The result is an
unsigned magnitude, modelled as `Nat`. -/
def parseBigInt (str : List Char) (base : Nat) : Except Err Nat :=
  parseLoop base str 0

/-- Specification-side Horner evaluation (spec section 4.1):
result := result × radix + digit, left to right over the digit values. -/
def specHorner (str : List Char) (base : Nat) : Nat :=
  str.foldl (fun result ch => result * base + (digitOfChar ch).getD 0) 0

/-- Test whether a character is an admissible digit for base `b`. -/
def isGoodDigit (b : Nat) (ch : Char) : Bool :=
  match digitOfChar ch with
  | some digit => decide (digit < b)
  | none => false

/-- One point entry of a test case (spec section 6): x-coordinate label (the
object key, already converted to an integer), radix, and digit string. -/
structure PointEntry : Type where
  x : Int
  base : Nat
  value : List Char
deriving DecidableEq

/-- A test case (spec section 6): threshold `k` plus the point entries in the
order their keys appear in the input object. -/
structure TestCase : Type where
  k : Nat
  points : List PointEntry
deriving DecidableEq

/-- Point extraction of `computeConstantTerm` (src/node.js lines 84-88): every
entry is decoded, in input order, to `(x, y)` with `y` parsed from the digit
string; the first parse failure aborts (the `.map` callback throws). Note that
this runs before the `.slice(0, k)` truncation. -/
def decodePoints : List PointEntry → Except Err (List (Int × Int))
  | [] => .ok []
  | p :: ps =>
    match parseBigInt p.value p.base with
    | .error e => .error e
    | .ok y =>
      match decodePoints ps with
      | .error e => .error e
      | .ok rest => .ok ((p.x, (y : Int)) :: rest)

/-- Inner loop of the interpolation (src/node.js lines 96-101): multiply `Li`
by `(-xj) / (xi - xj)` for every index `j` of the list except `i` itself. -/
def innerLoop (entries : List (Int × Int)) (xi : Int) (i : Nat) :
    List Nat → Rational → Except Err Rational
  | [], Li => .ok Li
  | j :: js, Li =>
    if j = i then innerLoop entries xi i js Li
    else
      match entries[j]? with
      | none => .error .TypeError
      | some e =>
        match Rational.make (-e.1) (xi - e.1) with
        | .error err => .error err
        | .ok f =>
          match Li.multiply f with
          | .error err => .error err
          | .ok Li2 => innerLoop entries xi i js Li2

/-- Outer loop of the interpolation (src/node.js lines 93-104): for each index
`i`, build the Lagrange basis value `Li` at zero starting from
`new Rational(1n, 1n)` and add `yi * Li` to the accumulator. -/
def outerLoop (entries : List (Int × Int)) (k : Nat) :
    List Nat → Rational → Except Err Rational
  | [], c => .ok c
  | i :: is, c =>
    match entries[i]? with
    | none => .error .TypeError
    | some p =>
      match Rational.make 1 1 with
      | .error err => .error err
      | .ok Li0 =>
        match innerLoop entries p.1 i (List.range k) Li0 with
        | .error err => .error err
        | .ok Li =>
          match Rational.make p.2 1 with
          | .error err => .error err
          | .ok yr =>
            match Li.multiply yr with
            | .error err => .error err
            | .ok t =>
              match c.add t with
              | .error err => .error err
              | .ok c2 => outerLoop entries k is c2

/-- Interpolation and narrowing part of `computeConstantTerm` (src/node.js
lines 89-107): truncate to the first `k` entries (`.slice(0, k)`), run the two
interpolation loops starting from the accumulator `new Rational(0n, 1n)`, and
narrow the final sum to an integer. -/
def reconstruct (points : List (Int × Int)) (k : Nat) : Except Err Int :=
  match Rational.make 0 1 with
  | .error e => .error e
  | .ok c0 =>
    match outerLoop (points.take k) k (List.range k) c0 with
    | .error e => .error e
    | .ok c => c.toBigInt

/-- Function `computeConstantTerm` (src/node.js lines 79-108): decode every
point entry in input order, then reconstruct `f(0)` from the first `k`
decoded points. -/
def computeConstantTerm (tc : TestCase) : Except Err Int :=
  match decodePoints tc.points with
  | .error e => .error e
  | .ok pts => reconstruct pts tc.k

/-- Evaluation of the integer polynomial with coefficient list `coeffs`
(constant coefficient first) at `x`. -/
def evalPoly : List Int → Int → Int
  | [], _ => 0
  | a :: as, x => a + x * evalPoly as x

/-- The same coefficient list as a polynomial over `ℚ` (proof-side bridge to
the Lagrange interpolation theory; not part of the embedded program). -/
noncomputable def toPolyQ : List Int → Polynomial ℚ
  | [] => 0
  | a :: as => Polynomial.C (a : ℚ) + Polynomial.X * toPolyQ as

/-- Rational value of the factor product computed by `innerLoop` for node `i`
out of `k`, the nodes being given by `x`. -/
def LiQ (x : Nat → Int) (k i : Nat) : ℚ :=
  ((List.range k).map fun j =>
    if j = i then 1 else (-(x j) : ℚ) / ((x i : ℚ) - (x j : ℚ))).prod

/-- Rational value of the full Lagrange sum at zero over a finite set of
points. -/
def SQ (s : Finset (Int × Int)) : ℚ :=
  ∑ p ∈ s, (p.2 : ℚ) * ∏ q ∈ s.erase p, (-(q.1) : ℚ) / ((p.1 : ℚ) - (q.1 : ℚ))

theorem gcdLoop_eq_gcd (bound : Nat) :
    ∀ a b : Nat, b ≤ bound → gcdLoop bound a b = Nat.gcd a b := by
  induction bound with
  | zero =>
    intro a b hb
    have hb0 : b = 0 := Nat.le_zero.mp hb
    subst hb0
    simp [gcdLoop]
  | succ bound ih =>
    intro a b hb
    cases b with
    | zero => simp [gcdLoop]
    | succ b =>
      have hstep : gcdLoop (bound + 1) a (b + 1) = gcdLoop bound (b + 1) (a % (b + 1)) := rfl
      have hlt : a % (b + 1) ≤ bound := by
        have := Nat.mod_lt a (show 0 < b + 1 by omega)
        omega
      rw [hstep, ih (b + 1) (a % (b + 1)) hlt]
      rw [Nat.gcd_comm (b + 1) (a % (b + 1)), ← Nat.gcd_rec, Nat.gcd_comm]

theorem gcdBig_eq_gcd (a b : Int) : gcdBig a b = (Int.gcd a b : Int) := by
  unfold gcdBig
  rw [gcdLoop_eq_gcd b.natAbs a.natAbs b.natAbs (le_refl _)]
  rfl

theorem Rational.make_zero_den (num : Int) :
    Rational.make num 0 = .error .DivisionByZero := by
  simp [Rational.make]

theorem Rational.make_pos (num den : Int) (hd : 0 < den) :
    Rational.make num den =
      .ok ⟨num / (Int.gcd num den : Int), den / (Int.gcd num den : Int)⟩ := by
  have hne : den ≠ 0 := hd.ne'
  have hnlt : ¬ den < 0 := not_lt.mpr hd.le
  simp only [Rational.make, if_neg hne, if_neg hnlt, gcdBig_eq_gcd,
    Int.tdiv_eq_ediv_of_dvd Int.gcd_dvd_left, Int.tdiv_eq_ediv_of_dvd Int.gcd_dvd_right]

theorem Rational.make_neg (num den : Int) (hd : den < 0) :
    Rational.make num den = Rational.make (-num) (-den) := by
  have h1 : den ≠ 0 := hd.ne
  have h2 : ¬ (-den = 0) := by omega
  have h3 : ¬ (-den < 0) := by omega
  simp only [Rational.make, if_neg h1, if_neg h2, if_pos hd, if_neg h3]

theorem Rational.make_spec_pos (num den : Int) (hd : 0 < den) :
    ∃ r : Rational, Rational.make num den = .ok r ∧ r.Valid ∧
      r.toRat = (num : ℚ) / (den : ℚ) ∧ (num = 0 → r = ⟨0, 1⟩) := by
  have hne : den ≠ 0 := hd.ne'
  have hgpos : 0 < Int.gcd num den := Int.gcd_pos_iff.mpr (Or.inr hne)
  set g : Int := (Int.gcd num den : Int) with hgdef
  have hgpos' : (0 : Int) < g := by rw [hgdef]; exact_mod_cast hgpos
  have hdvdn : g ∣ num := Int.gcd_dvd_left
  have hdvdd : g ∣ den := Int.gcd_dvd_right
  refine ⟨⟨num / g, den / g⟩, Rational.make_pos num den hd, ⟨?_, ?_⟩, ?_, ?_⟩
  · obtain ⟨m, hm⟩ := hdvdd
    rw [hm, Int.mul_ediv_cancel_left _ hgpos'.ne']
    nlinarith [hm ▸ hd]
  · rw [gcdBig_eq_gcd]
    have := Int.gcd_div_gcd_div_gcd (i := num) (j := den) hgpos
    exact_mod_cast this
  · show ((num / g : Int) : ℚ) / ((den / g : Int) : ℚ) = (num : ℚ) / (den : ℚ)
    rw [Int.cast_div_charZero hdvdn, Int.cast_div_charZero hdvdd]
    have hgq : (g : ℚ) ≠ 0 := by exact_mod_cast hgpos'.ne'
    have hdq : (den : ℚ) ≠ 0 := Int.cast_ne_zero.mpr hne
    field_simp
  · intro h0
    subst h0
    have hg0 : g = den.natAbs := by
      rw [hgdef, Int.gcd_def]
      simp [Int.natAbs_zero, Nat.gcd_zero_left]
    have hgden : g = den := by rw [hg0, Int.natAbs_of_nonneg hd.le]
    have : den / g = 1 := by rw [hgden]; exact Int.ediv_self hne
    simp only [Int.zero_ediv, this]

theorem Rational.make_spec (num den : Int) (hd : den ≠ 0) :
    ∃ r : Rational, Rational.make num den = .ok r ∧ r.Valid ∧
      r.toRat = (num : ℚ) / (den : ℚ) ∧ (num = 0 → r = ⟨0, 1⟩) := by
  rcases lt_or_gt_of_ne hd with hneg | hpos
  · obtain ⟨r, hr, hv, hrat, hz⟩ := Rational.make_spec_pos (-num) (-den) (by omega)
    refine ⟨r, by rw [Rational.make_neg num den hneg]; exact hr, hv, ?_, ?_⟩
    · rw [hrat]
      rw [Int.cast_neg, Int.cast_neg, neg_div_neg_eq]
    · intro h0
      exact hz (by omega)
  · exact Rational.make_spec_pos num den hpos

theorem Rational.add_spec (a b : Rational) (ha : a.Valid) (hb : b.Valid) :
    ∃ c : Rational, a.add b = .ok c ∧ c.Valid ∧ c.toRat = a.toRat + b.toRat := by
  have had : a.d ≠ 0 := ha.1.ne'
  have hbd : b.d ≠ 0 := hb.1.ne'
  obtain ⟨c, hc, hcv, hcr, -⟩ :=
    Rational.make_spec (a.n * b.d + b.n * a.d) (a.d * b.d) (mul_ne_zero had hbd)
  refine ⟨c, hc, hcv, ?_⟩
  rw [hcr]
  unfold Rational.toRat
  have h1 : (a.d : ℚ) ≠ 0 := Int.cast_ne_zero.mpr had
  have h2 : (b.d : ℚ) ≠ 0 := Int.cast_ne_zero.mpr hbd
  push_cast
  field_simp

theorem Rational.multiply_spec (a b : Rational) (ha : a.Valid) (hb : b.Valid) :
    ∃ c : Rational, a.multiply b = .ok c ∧ c.Valid ∧ c.toRat = a.toRat * b.toRat := by
  have had : a.d ≠ 0 := ha.1.ne'
  have hbd : b.d ≠ 0 := hb.1.ne'
  obtain ⟨c, hc, hcv, hcr, -⟩ :=
    Rational.make_spec (a.n * b.n) (a.d * b.d) (mul_ne_zero had hbd)
  refine ⟨c, hc, hcv, ?_⟩
  rw [hcr]
  unfold Rational.toRat
  push_cast
  rw [div_mul_div_comm]

theorem Rational.valid_gcd (a : Rational) (ha : a.Valid) : Int.gcd a.n a.d = 1 := by
  have := ha.2
  rw [gcdBig_eq_gcd] at this
  exact_mod_cast this

theorem Rational.toBigInt_spec (a : Rational) (ha : a.Valid) (m : Int)
    (hm : a.toRat = (m : ℚ)) : a.toBigInt = .ok m := by
  have hd0 : (a.d : ℚ) ≠ 0 := Int.cast_ne_zero.mpr ha.1.ne'
  have hnm : (a.n : ℚ) = (m : ℚ) * (a.d : ℚ) := by
    rw [Rational.toRat] at hm
    exact (div_eq_iff hd0).mp hm
  have hnm' : a.n = m * a.d := by exact_mod_cast hnm
  have hdvd : a.d ∣ a.n := ⟨m, by rw [hnm', mul_comm]⟩
  have habs : a.d.natAbs ∣ a.n.natAbs := Int.natAbs_dvd_natAbs.mpr hdvd
  have h1 : Nat.gcd a.n.natAbs a.d.natAbs = a.d.natAbs := Nat.gcd_eq_right habs
  have hgcd : Int.gcd a.n a.d = 1 := Rational.valid_gcd a ha
  rw [Int.gcd_def, h1] at hgcd
  have hd1 : a.d = 1 := by have := ha.1; omega
  rw [Rational.toBigInt, if_neg (by simp [hd1])]
  rw [hnm', hd1, mul_one]

theorem Rational.valid_inj (a b : Rational) (ha : a.Valid) (hb : b.Valid)
    (h : a.toRat = b.toRat) : a = b := by
  have had : (a.d : ℚ) ≠ 0 := Int.cast_ne_zero.mpr ha.1.ne'
  have hbd : (b.d : ℚ) ≠ 0 := Int.cast_ne_zero.mpr hb.1.ne'
  have hcross : (a.n : ℚ) * (b.d : ℚ) = (b.n : ℚ) * (a.d : ℚ) := by
    rw [Rational.toRat, Rational.toRat, div_eq_div_iff had hbd] at h
    exact h
  have hcross' : a.n * b.d = b.n * a.d := by exact_mod_cast hcross
  have hda : a.d ∣ b.d := by
    have hd1 : a.d ∣ b.d * a.n := ⟨b.n, by linarith [hcross']⟩
    exact Int.dvd_of_dvd_mul_left_of_gcd_one hd1
      (by rw [Int.gcd_comm]; exact Rational.valid_gcd a ha)
  have hdb : b.d ∣ a.d := by
    have hd1 : b.d ∣ a.d * b.n := ⟨a.n, by linarith [hcross']⟩
    exact Int.dvd_of_dvd_mul_left_of_gcd_one hd1
      (by rw [Int.gcd_comm]; exact Rational.valid_gcd b hb)
  have hd : a.d = b.d := Int.dvd_antisymm ha.1.le hb.1.le hda hdb
  have hn : a.n = b.n := by
    have : a.n * b.d = b.n * b.d := by rw [hcross', hd]
    exact mul_right_cancel₀ (by exact_mod_cast hbd) this
  cases a
  cases b
  simp_all

theorem Rational.valid_num_zero (a : Rational) (ha : a.Valid) (h0 : a.n = 0) :
    a = ⟨0, 1⟩ := by
  have hgcd : Int.gcd a.n a.d = 1 := Rational.valid_gcd a ha
  rw [h0, Int.gcd_def] at hgcd
  simp only [Int.natAbs_zero, Nat.gcd_zero_left] at hgcd
  have hd1 : a.d = 1 := by have := ha.1; omega
  cases a
  simp_all

theorem parseLoop_ok (b : Nat) (s : List Char) :
    ∀ acc : Nat, (∀ c ∈ s, ∃ d, digitOfChar c = some d ∧ d < b) →
      parseLoop b s acc =
        .ok (s.foldl (fun result ch => result * b + (digitOfChar ch).getD 0) acc) := by
  induction s with
  | nil => intro acc _; rfl
  | cons c cs ih =>
    intro acc hall
    obtain ⟨d, hd, hdb⟩ := hall c (List.mem_cons_self c cs)
    have hnb : ¬ d ≥ b := not_le.mpr hdb
    simp only [parseLoop, hd, if_neg hnb, List.foldl_cons, Option.getD_some]
    exact ih (acc * b + d) (fun c' hc' => hall c' (List.mem_cons_of_mem c hc'))

theorem parseLoop_classify (b : Nat) (s : List Char) :
    ∀ acc : Nat,
      (parseLoop b s acc = .error .InvalidDigit ↔
        ∃ c, s.find? (fun c => ! isGoodDigit b c) = some c ∧ digitOfChar c = none) ∧
      (parseLoop b s acc = .error .DigitOutOfRange ↔
        ∃ c d, s.find? (fun c => ! isGoodDigit b c) = some c ∧
          digitOfChar c = some d ∧ b ≤ d) ∧
      ((∃ v, parseLoop b s acc = .ok v) ↔
        s.find? (fun c => ! isGoodDigit b c) = none) := by
  induction s with
  | nil =>
    intro acc
    refine ⟨?_, ?_, ?_⟩ <;> simp [parseLoop, List.find?]
  | cons c cs ih =>
    intro acc
    match hdig : digitOfChar c with
    | none =>
      have hbad : isGoodDigit b c = false := by simp [isGoodDigit, hdig]
      have hfind : (c :: cs).find? (fun c => ! isGoodDigit b c) = some c :=
        List.find?_cons_of_pos _ (by simp [hbad])
      refine ⟨?_, ?_, ?_⟩
      · simp [parseLoop, hdig, hfind]
      · simp [parseLoop, hdig, hfind]
      · simp [parseLoop, hdig, hfind]
    | some d =>
      by_cases hdb : d ≥ b
      · have hbad : isGoodDigit b c = false := by
          simp [isGoodDigit, hdig, decide_eq_false (not_lt.mpr hdb)]
        have hfind : (c :: cs).find? (fun c => ! isGoodDigit b c) = some c :=
          List.find?_cons_of_pos _ (by simp [hbad])
        refine ⟨?_, ?_, ?_⟩
        · simp [parseLoop, hdig, if_pos hdb, hfind]
        · simp [parseLoop, hdig, if_pos hdb, hfind]
          exact hdb
        · simp [parseLoop, hdig, if_pos hdb, hfind]
      · have hgood : isGoodDigit b c = true := by
          simp [isGoodDigit, hdig, decide_eq_true (not_le.mp hdb)]
        have hfind : (c :: cs).find? (fun c => ! isGoodDigit b c) =
            cs.find? (fun c => ! isGoodDigit b c) :=
          List.find?_cons_of_neg _ (by simp [hgood])
        have hstep : parseLoop b (c :: cs) acc = parseLoop b cs (acc * b + d) := by
          simp [parseLoop, hdig, if_neg hdb]
        rw [hstep, hfind]
        exact ih (acc * b + d)

theorem innerLoop_ok (entries : List (Int × Int)) (x : Nat → Int) (xi : Int) (i : Nat)
    (js : List Nat) :
    ∀ Li : Rational, Li.Valid →
    (∀ j ∈ js, ∃ e, entries[j]? = some e ∧ e.1 = x j) →
    (∀ j ∈ js, j ≠ i → x j ≠ xi) →
    ∃ L : Rational, innerLoop entries xi i js Li = .ok L ∧ L.Valid ∧
      L.toRat = Li.toRat *
        (js.map fun j =>
          if j = i then (1 : ℚ) else (-(x j) : ℚ) / ((xi : ℚ) - (x j : ℚ))).prod := by
  induction js with
  | nil =>
    intro Li hLi _ _
    exact ⟨Li, rfl, hLi, by simp⟩
  | cons j js ih =>
    intro Li hLi hget hne
    by_cases hji : j = i
    · have hstep : innerLoop entries xi i (j :: js) Li = innerLoop entries xi i js Li := by
        simp [innerLoop, if_pos hji]
      obtain ⟨L, hL, hLv, hLr⟩ := ih Li hLi
        (fun j' hj' => hget j' (List.mem_cons_of_mem j hj'))
        (fun j' hj' => hne j' (List.mem_cons_of_mem j hj'))
      refine ⟨L, by rw [hstep]; exact hL, hLv, ?_⟩
      rw [hLr, List.map_cons, List.prod_cons, if_pos hji, one_mul]
    · obtain ⟨e, he, hex⟩ := hget j (List.mem_cons_self j js)
      have hxj : x j ≠ xi := hne j (List.mem_cons_self j js) hji
      have hden : xi - e.1 ≠ 0 := by rw [hex]; exact sub_ne_zero.mpr (Ne.symm hxj)
      obtain ⟨f, hf, hfv, hfr, -⟩ := Rational.make_spec (-e.1) (xi - e.1) hden
      obtain ⟨Li2, hLi2, hLi2v, hLi2r⟩ := Rational.multiply_spec Li f hLi hfv
      obtain ⟨L, hL, hLv, hLr⟩ := ih Li2 hLi2v
        (fun j' hj' => hget j' (List.mem_cons_of_mem j hj'))
        (fun j' hj' => hne j' (List.mem_cons_of_mem j hj'))
      have hstep : innerLoop entries xi i (j :: js) Li = innerLoop entries xi i js Li2 := by
        simp [innerLoop, if_neg hji, he, hf, hLi2]
      refine ⟨L, by rw [hstep]; exact hL, hLv, ?_⟩
      rw [hLr, hLi2r, hfr, List.map_cons, List.prod_cons, if_neg hji, hex]
      push_cast
      ring

theorem innerLoop_err (entries : List (Int × Int)) (xi : Int) (i : Nat)
    (js : List Nat) :
    ∀ Li : Rational, Li.Valid →
    (∀ j ∈ js, j ≠ i → ∃ e, entries[j]? = some e) →
    (∃ j ∈ js, j ≠ i ∧ ∃ e, entries[j]? = some e ∧ e.1 = xi) →
    innerLoop entries xi i js Li = .error .DivisionByZero := by
  induction js with
  | nil =>
    intro Li _ _ hwit
    obtain ⟨j, hj, -⟩ := hwit
    exact absurd hj (List.not_mem_nil j)
  | cons j js ih =>
    intro Li hLi hget hwit
    by_cases hji : j = i
    · have hstep : innerLoop entries xi i (j :: js) Li = innerLoop entries xi i js Li := by
        simp [innerLoop, if_pos hji]
      rw [hstep]
      refine ih Li hLi (fun j' hj' => hget j' (List.mem_cons_of_mem j hj')) ?_
      obtain ⟨j0, hj0mem, hj0ne, he0⟩ := hwit
      have : j0 ∈ js := by
        rcases List.mem_cons.mp hj0mem with h | h
        · exact absurd (h.trans hji) hj0ne
        · exact h
      exact ⟨j0, this, hj0ne, he0⟩
    · obtain ⟨e, he⟩ := hget j (List.mem_cons_self j js) hji
      by_cases hxe : e.1 = xi
      · have hden : xi - e.1 = 0 := by rw [hxe]; ring
        simp [innerLoop, if_neg hji, he, hden, Rational.make]
      · have hden : xi - e.1 ≠ 0 := fun h => hxe (by omega)
        obtain ⟨f, hf, hfv, -, -⟩ := Rational.make_spec (-e.1) (xi - e.1) hden
        obtain ⟨Li2, hLi2, hLi2v, -⟩ := Rational.multiply_spec Li f hLi hfv
        have hstep : innerLoop entries xi i (j :: js) Li = innerLoop entries xi i js Li2 := by
          simp [innerLoop, if_neg hji, he, hf, hLi2]
        rw [hstep]
        refine ih Li2 hLi2v (fun j' hj' => hget j' (List.mem_cons_of_mem j hj')) ?_
        obtain ⟨j0, hj0mem, hj0ne, e0, he0, he0x⟩ := hwit
        have : j0 ∈ js := by
          rcases List.mem_cons.mp hj0mem with h | h
          · subst h
            rw [he] at he0
            have : e0 = e := by injection he0 with h; exact h.symm
            exact absurd (this ▸ he0x) hxe
          · exact h
        exact ⟨j0, this, hj0ne, e0, he0, he0x⟩

theorem outerLoop_ok (entries : List (Int × Int)) (x y : Nat → Int) (k : Nat)
    (is : List Nat) :
    ∀ c : Rational, c.Valid →
    (∀ i ∈ is, entries[i]? = some (x i, y i)) →
    (∀ j ∈ List.range k, ∃ e, entries[j]? = some e ∧ e.1 = x j) →
    (∀ i ∈ is, ∀ j ∈ List.range k, j ≠ i → x j ≠ x i) →
    ∃ c2 : Rational, outerLoop entries k is c = .ok c2 ∧ c2.Valid ∧
      c2.toRat = c.toRat + (is.map fun i => (y i : ℚ) * LiQ x k i).sum := by
  induction is with
  | nil =>
    intro c hc _ _ _
    exact ⟨c, rfl, hc, by simp⟩
  | cons i is ih =>
    intro c hc hget hgetAll hne
    have hp : entries[i]? = some (x i, y i) := hget i (List.mem_cons_self i is)
    obtain ⟨Li0, h10, h10v, h10r, -⟩ := Rational.make_spec 1 1 one_ne_zero
    have h10r' : Li0.toRat = 1 := by rw [h10r]; norm_num
    obtain ⟨L, hL, hLv, hLr⟩ := innerLoop_ok entries x (x i) i (List.range k) Li0 h10v
      hgetAll (fun j hj hji => hne i (List.mem_cons_self i is) j hj hji)
    obtain ⟨yr, hyr, hyrv, hyrr, -⟩ := Rational.make_spec (y i) 1 one_ne_zero
    have hyrr' : yr.toRat = (y i : ℚ) := by rw [hyrr]; norm_num
    obtain ⟨t, ht, htv, htr⟩ := Rational.multiply_spec L yr hLv hyrv
    obtain ⟨c2, hc2, hc2v, hc2r⟩ := Rational.add_spec c t hc htv
    obtain ⟨cf, hcf, hcfv, hcfr⟩ := ih c2 hc2v
      (fun i' hi' => hget i' (List.mem_cons_of_mem i hi'))
      hgetAll
      (fun i' hi' => hne i' (List.mem_cons_of_mem i hi'))
    have hstep : outerLoop entries k (i :: is) c = outerLoop entries k is c2 := by
      simp [outerLoop, hp, h10, hL, hyr, ht, hc2]
    refine ⟨cf, by rw [hstep]; exact hcf, hcfv, ?_⟩
    rw [hcfr, hc2r, htr, hLr, h10r', hyrr', one_mul, List.map_cons, List.sum_cons, LiQ]
    ring

theorem outerLoop_err (entries : List (Int × Int)) (x : Nat → Int) (k : Nat)
    (is : List Nat) :
    ∀ c : Rational, c.Valid →
    (∀ j ∈ List.range k, ∃ e, entries[j]? = some e ∧ e.1 = x j) →
    (∀ i ∈ is, ∃ e, entries[i]? = some e ∧ e.1 = x i) →
    (∃ i ∈ is, ∃ j ∈ List.range k, j ≠ i ∧ x j = x i) →
    outerLoop entries k is c = .error .DivisionByZero := by
  induction is with
  | nil =>
    intro c _ _ _ hwit
    obtain ⟨i, hi, -⟩ := hwit
    exact absurd hi (List.not_mem_nil i)
  | cons i is ih =>
    intro c hc hgetAll hget hwit
    obtain ⟨p, hp, hpx⟩ := hget i (List.mem_cons_self i is)
    obtain ⟨Li0, h10, h10v, -, -⟩ := Rational.make_spec 1 1 one_ne_zero
    by_cases hpart : ∃ j ∈ List.range k, j ≠ i ∧ x j = x i
    · obtain ⟨j, hjmem, hjne, hjx⟩ := hpart
      obtain ⟨e, he, hex⟩ := hgetAll j hjmem
      have hinner : innerLoop entries p.1 i (List.range k) Li0 = .error .DivisionByZero := by
        refine innerLoop_err entries p.1 i (List.range k) Li0 h10v
          (fun j' hj' _ => ⟨(hgetAll j' hj').choose, (hgetAll j' hj').choose_spec.1⟩) ?_
        exact ⟨j, hjmem, hjne, e, he, by rw [hex, hjx, hpx]⟩
      simp [outerLoop, hp, h10, hinner]
    · have hne : ∀ j ∈ List.range k, j ≠ i → x j ≠ x i := by
        intro j hj hji
        by_contra hxx
        exact hpart ⟨j, hj, hji, not_not.mp (by simpa using hxx)⟩
      have hgetFun : ∀ j ∈ List.range k, ∃ e, entries[j]? = some e ∧ e.1 = x j := hgetAll
      obtain ⟨L, hL, hLv, -⟩ := innerLoop_ok entries x p.1 i (List.range k) Li0 h10v
        hgetFun (by rw [hpx]; exact hne)
      obtain ⟨yr, hyr, hyrv, -, -⟩ := Rational.make_spec p.2 1 one_ne_zero
      obtain ⟨t, ht, htv, -⟩ := Rational.multiply_spec L yr hLv hyrv
      obtain ⟨c2, hc2, hc2v, -⟩ := Rational.add_spec c t hc htv
      have hstep : outerLoop entries k (i :: is) c = outerLoop entries k is c2 := by
        simp [outerLoop, hp, h10, hL, hyr, ht, hc2]
      rw [hstep]
      refine ih c2 hc2v hgetAll (fun i' hi' => hget i' (List.mem_cons_of_mem i hi')) ?_
      obtain ⟨i0, hi0mem, j0, hj0mem, hj0ne, hj0x⟩ := hwit
      have hi0 : i0 ∈ is := by
        rcases List.mem_cons.mp hi0mem with h | h
        · subst h
          exact absurd ⟨j0, hj0mem, hj0ne, hj0x⟩ hpart
        · exact h
      exact ⟨i0, hi0, j0, hj0mem, hj0ne, hj0x⟩

theorem listRange_map_sum_eq (l : List (Int × Int)) (d : Int × Int)
    (F : Int × Int → ℚ) :
    ((List.range l.length).map fun i => F (l.getD i d)).sum = (l.map F).sum := by
  induction l with
  | nil => simp
  | cons a l ih =>
    have h1 : List.range (a :: l).length = 0 :: (List.range l.length).map Nat.succ := by
      rw [List.length_cons, List.range_succ_eq_map]
    rw [h1, List.map_cons, List.sum_cons, List.map_map]
    have h2 : (List.range l.length).map ((fun i => F ((a :: l).getD i d)) ∘ Nat.succ) =
        (List.range l.length).map fun i => F (l.getD i d) :=
      List.map_congr_left fun i _ => by simp
    rw [h2, ih]
    simp

theorem listRange_map_prod_eq (l : List (Int × Int)) (d : Int × Int)
    (F : Int × Int → ℚ) :
    ((List.range l.length).map fun i => F (l.getD i d)).prod = (l.map F).prod := by
  induction l with
  | nil => simp
  | cons a l ih =>
    have h1 : List.range (a :: l).length = 0 :: (List.range l.length).map Nat.succ := by
      rw [List.length_cons, List.range_succ_eq_map]
    rw [h1, List.map_cons, List.prod_cons, List.map_map]
    have h2 : (List.range l.length).map ((fun i => F ((a :: l).getD i d)) ∘ Nat.succ) =
        (List.range l.length).map fun i => F (l.getD i d) :=
      List.map_congr_left fun i _ => by simp
    rw [h2, ih]
    simp

theorem nodup_map_getD_ne (l : List (Int × Int)) (h : (l.map Prod.fst).Nodup)
    (d : Int × Int) (i j : Nat) (hi : i < l.length) (hj : j < l.length) (hij : i ≠ j) :
    (l.getD i d).1 ≠ (l.getD j d).1 := by
  intro heq
  have hinj : Function.Injective (l.map Prod.fst).get :=
    List.nodup_iff_injective_get.mp h
  have hi' : i < (l.map Prod.fst).length := by rw [List.length_map]; exact hi
  have hj' : j < (l.map Prod.fst).length := by rw [List.length_map]; exact hj
  have hgi : (l.map Prod.fst).get ⟨i, hi'⟩ = (l.getD i d).1 := by
    rw [List.get_eq_getElem, List.getElem_map, List.getD_eq_getElem l d hi]
  have hgj : (l.map Prod.fst).get ⟨j, hj'⟩ = (l.getD j d).1 := by
    rw [List.get_eq_getElem, List.getElem_map, List.getD_eq_getElem l d hj]
  have := hinj (hgi.trans (heq.trans hgj.symm))
  exact hij (by injection this)

theorem prod_if_fst_erase (s : Finset (Int × Int)) (p : Int × Int) (hp : p ∈ s)
    (hinj : ∀ a ∈ s, ∀ b ∈ s, a.1 = b.1 → a = b) (f : Int × Int → ℚ) :
    (∏ q ∈ s, if q.1 = p.1 then 1 else f q) = ∏ q ∈ s.erase p, f q := by
  have h1 : ∀ q ∈ s, (if q.1 = p.1 then (1 : ℚ) else f q) = if q = p then 1 else f q := by
    intro q hq
    by_cases h : q = p
    · rw [if_pos h, if_pos (by rw [h])]
    · rw [if_neg h, if_neg (fun hfst => h (hinj q hq p hp hfst))]
  rw [Finset.prod_congr rfl h1, ← Finset.filter_ne' s p, Finset.prod_filter]
  exact Finset.prod_congr rfl fun q _ => (ite_not (q = p) (f q) 1).symm

theorem sum_LiQ_eq_SQ (entries : List (Int × Int))
    (hnd : (entries.map Prod.fst).Nodup) :
    ((List.range entries.length).map fun i =>
      (((entries.getD i (0, 0)).2 : Int) : ℚ) *
        LiQ (fun j => (entries.getD j (0, 0)).1) entries.length i).sum =
      SQ entries.toFinset := by
  have hpairnd : entries.Nodup := List.Nodup.of_map _ hnd
  have hinj : ∀ a ∈ entries, ∀ b ∈ entries, a.1 = b.1 → a = b :=
    fun a ha b hb hab => List.inj_on_of_nodup_map hnd ha hb hab
  have hstepA : ∀ i ∈ List.range entries.length,
      (((entries.getD i (0, 0)).2 : Int) : ℚ) *
        LiQ (fun j => (entries.getD j (0, 0)).1) entries.length i =
      (fun p : Int × Int => ((p.2 : Int) : ℚ) *
        ((List.range entries.length).map fun j =>
          if (entries.getD j (0, 0)).1 = p.1 then (1 : ℚ)
          else (-((entries.getD j (0, 0)).1) : ℚ) /
            ((p.1 : ℚ) - ((entries.getD j (0, 0)).1 : ℚ))).prod)
        (entries.getD i (0, 0)) := by
    intro i hi
    show _ = ((entries.getD i (0, 0)).2 : ℚ) *
        ((List.range entries.length).map fun j =>
          if (entries.getD j (0, 0)).1 = (entries.getD i (0, 0)).1 then (1 : ℚ)
          else (-((entries.getD j (0, 0)).1) : ℚ) /
            (((entries.getD i (0, 0)).1 : ℚ) - ((entries.getD j (0, 0)).1 : ℚ))).prod
    congr 1
    unfold LiQ
    congr 1
    apply List.map_congr_left
    intro j hj
    by_cases hji : j = i
    · rw [if_pos hji, if_pos (by rw [hji])]
    · have hx := nodup_map_getD_ne entries hnd (0, 0) j i
        (List.mem_range.mp hj) (List.mem_range.mp hi) hji
      rw [if_neg hji, if_neg hx]
  rw [List.map_congr_left hstepA,
    listRange_map_sum_eq entries (0, 0)
      (fun p : Int × Int => ((p.2 : Int) : ℚ) *
        ((List.range entries.length).map fun j =>
          if (entries.getD j (0, 0)).1 = p.1 then (1 : ℚ)
          else (-((entries.getD j (0, 0)).1) : ℚ) /
            ((p.1 : ℚ) - ((entries.getD j (0, 0)).1 : ℚ))).prod),
    ← List.sum_toFinset _ hpairnd]
  unfold SQ
  apply Finset.sum_congr rfl
  intro p hp
  show ((p.2 : Int) : ℚ) *
      ((List.range entries.length).map fun j =>
        if (entries.getD j (0, 0)).1 = p.1 then (1 : ℚ)
        else (-((entries.getD j (0, 0)).1) : ℚ) /
          ((p.1 : ℚ) - ((entries.getD j (0, 0)).1 : ℚ))).prod = _
  congr 1
  rw [show ((List.range entries.length).map fun j =>
        if (entries.getD j (0, 0)).1 = p.1 then (1 : ℚ)
        else (-((entries.getD j (0, 0)).1) : ℚ) /
          ((p.1 : ℚ) - ((entries.getD j (0, 0)).1 : ℚ))).prod =
      (entries.map fun q : Int × Int =>
        if q.1 = p.1 then (1 : ℚ)
        else (-(q.1) : ℚ) / ((p.1 : ℚ) - (q.1 : ℚ))).prod from
    listRange_map_prod_eq entries (0, 0)
      (fun q : Int × Int =>
        if q.1 = p.1 then (1 : ℚ)
        else (-(q.1) : ℚ) / ((p.1 : ℚ) - (q.1 : ℚ)))]
  rw [← List.prod_toFinset _ hpairnd]
  exact prod_if_fst_erase entries.toFinset p hp
    (fun a ha b hb hab =>
      hinj a (List.mem_toFinset.mp ha) b (List.mem_toFinset.mp hb) hab)
    (fun q => (-(q.1) : ℚ) / ((p.1 : ℚ) - (q.1 : ℚ)))

theorem reconstruct_sum (points : List (Int × Int)) (k : Nat)
    (hlen : k ≤ points.length)
    (hnd : ((points.take k).map Prod.fst).Nodup) :
    ∃ c : Rational, c.Valid ∧ c.toRat = SQ (points.take k).toFinset ∧
      reconstruct points k = c.toBigInt := by
  have hek : (points.take k).length = k := by
    rw [List.length_take]
    exact inf_eq_left.mpr hlen
  have hgetAll : ∀ j ∈ List.range k, ∃ e, (points.take k)[j]? = some e ∧
      e.1 = ((points.take k).getD j (0, 0)).1 := by
    intro j hj
    have hjk : j < (points.take k).length := by rw [hek]; exact List.mem_range.mp hj
    exact ⟨(points.take k)[j], List.getElem?_eq_getElem hjk,
      by rw [List.getD_eq_getElem _ _ hjk]⟩
  have hgetIs : ∀ i ∈ List.range k,
      (points.take k)[i]? =
        some (((points.take k).getD i (0, 0)).1, ((points.take k).getD i (0, 0)).2) := by
    intro i hi
    have hik : i < (points.take k).length := by rw [hek]; exact List.mem_range.mp hi
    rw [List.getElem?_eq_getElem hik, List.getD_eq_getElem _ _ hik]
  have hne : ∀ i ∈ List.range k, ∀ j ∈ List.range k, j ≠ i →
      ((points.take k).getD j (0, 0)).1 ≠ ((points.take k).getD i (0, 0)).1 := by
    intro i hi j hj hji
    exact nodup_map_getD_ne (points.take k) hnd (0, 0) j i
      (by rw [hek]; exact List.mem_range.mp hj)
      (by rw [hek]; exact List.mem_range.mp hi) hji
  obtain ⟨c0, h0, h0v, h0r, -⟩ := Rational.make_spec 0 1 one_ne_zero
  have h0r' : c0.toRat = 0 := by rw [h0r]; norm_num
  obtain ⟨c, hc, hcv, hcr⟩ := outerLoop_ok (points.take k)
    (fun j => ((points.take k).getD j (0, 0)).1)
    (fun j => ((points.take k).getD j (0, 0)).2)
    k (List.range k) c0 h0v hgetIs hgetAll hne
  refine ⟨c, hcv, ?_, ?_⟩
  · rw [hcr, h0r', zero_add]
    have hsum := sum_LiQ_eq_SQ (points.take k) hnd
    rw [hek] at hsum
    exact hsum
  · simp [reconstruct, h0, hc]

theorem reconstruct_dup_err (points : List (Int × Int)) (k : Nat)
    (hlen : k ≤ points.length)
    (hnd : ¬ ((points.take k).map Prod.fst).Nodup) :
    reconstruct points k = .error .DivisionByZero := by
  have hek : (points.take k).length = k := by
    rw [List.length_take]
    exact inf_eq_left.mpr hlen
  have hgetAll : ∀ j ∈ List.range k, ∃ e, (points.take k)[j]? = some e ∧
      e.1 = ((points.take k).getD j (0, 0)).1 := by
    intro j hj
    have hjk : j < (points.take k).length := by rw [hek]; exact List.mem_range.mp hj
    exact ⟨(points.take k)[j], List.getElem?_eq_getElem hjk,
      by rw [List.getD_eq_getElem _ _ hjk]⟩
  obtain ⟨c0, h0, h0v, -, -⟩ := Rational.make_spec 0 1 one_ne_zero
  have hwit : ∃ i ∈ List.range k, ∃ j ∈ List.range k, j ≠ i ∧
      ((points.take k).getD j (0, 0)).1 = ((points.take k).getD i (0, 0)).1 := by
    have hmap : ¬ Function.Injective ((points.take k).map Prod.fst).get := by
      intro hinj
      exact hnd (List.nodup_iff_injective_get.mpr hinj)
    rw [Function.not_injective_iff] at hmap
    obtain ⟨a, b, hab, hne⟩ := hmap
    have hlenm : ((points.take k).map Prod.fst).length = k := by
      rw [List.length_map, hek]
    refine ⟨b.1, List.mem_range.mpr (by omega), a.1, List.mem_range.mpr (by omega),
      ?_, ?_⟩
    · intro h
      exact hne (Fin.ext h)
    · have ha : a.1 < (points.take k).length := by rw [hek]; omega
      have hb : b.1 < (points.take k).length := by rw [hek]; omega
      have hga : ((points.take k).map Prod.fst).get a = ((points.take k).getD a.1 (0, 0)).1 := by
        rw [List.get_eq_getElem, List.getElem_map, List.getD_eq_getElem _ _ ha]
      have hgb : ((points.take k).map Prod.fst).get b = ((points.take k).getD b.1 (0, 0)).1 := by
        rw [List.get_eq_getElem, List.getElem_map, List.getD_eq_getElem _ _ hb]
      rw [← hga, ← hgb, hab]
  have herr : outerLoop (points.take k) k (List.range k) c0 = .error .DivisionByZero :=
    outerLoop_err (points.take k) (fun j => ((points.take k).getD j (0, 0)).1) k
      (List.range k) c0 h0v hgetAll hgetAll hwit
  simp [reconstruct, h0, herr]

theorem reconstruct_take (points : List (Int × Int)) (k : Nat) :
    reconstruct points k = reconstruct (points.take k) k := by
  unfold reconstruct
  rw [List.take_take, inf_of_le_left (le_refl k)]

theorem evalPoly_toPolyQ (coeffs : List Int) (a : Int) :
    (toPolyQ coeffs).eval (a : ℚ) = ((evalPoly coeffs a : Int) : ℚ) := by
  induction coeffs with
  | nil => simp [toPolyQ, evalPoly]
  | cons c cs ih =>
    show (Polynomial.C (c : ℚ) + Polynomial.X * toPolyQ cs).eval (a : ℚ) = _
    rw [Polynomial.eval_add, Polynomial.eval_C, Polynomial.eval_mul, Polynomial.eval_X, ih]
    show _ = ((c + a * evalPoly cs a : Int) : ℚ)
    push_cast
    ring

theorem toPolyQ_coeff (coeffs : List Int) :
    ∀ m : Nat, (toPolyQ coeffs).coeff m = ((coeffs.getD m 0 : Int) : ℚ) := by
  induction coeffs with
  | nil => intro m; simp [toPolyQ]
  | cons c cs ih =>
    intro m
    cases m with
    | zero =>
      show (Polynomial.C (c : ℚ) + Polynomial.X * toPolyQ cs).coeff 0 = _
      rw [Polynomial.coeff_add, Polynomial.coeff_C_zero]
      simp [List.getD_cons_zero]
    | succ m =>
      show (Polynomial.C (c : ℚ) + Polynomial.X * toPolyQ cs).coeff (m + 1) = _
      rw [Polynomial.coeff_add, Polynomial.coeff_X_mul, ih m, Polynomial.coeff_C]
      simp [List.getD_cons_succ]

theorem toPolyQ_degree_lt (coeffs : List Int) :
    (toPolyQ coeffs).degree < (coeffs.length : WithBot Nat) := by
  rw [Polynomial.degree_lt_iff_coeff_zero]
  intro m hm
  rw [toPolyQ_coeff coeffs m, List.getD_eq_default _ _ hm]
  simp

theorem SQ_sampled (coeffs : List Int) (s : Finset (Int × Int))
    (hinj : ∀ a ∈ s, ∀ b ∈ s, a.1 = b.1 → a = b)
    (hy : ∀ p ∈ s, ((p.2 : Int) : ℚ) = (toPolyQ coeffs).eval ((p.1 : Int) : ℚ))
    (hdeg : coeffs.length ≤ s.card) :
    SQ s = ((evalPoly coeffs 0 : Int) : ℚ) := by
  have hvs : Set.InjOn (fun p : Int × Int => ((p.1 : Int) : ℚ)) ↑s := by
    intro a ha b hb hab
    simp only at hab
    exact hinj a ha b hb (by exact_mod_cast hab)
  have hdf : (toPolyQ coeffs).degree < (s.card : WithBot Nat) :=
    lt_of_lt_of_le (toPolyQ_degree_lt coeffs) (by exact_mod_cast hdeg)
  have hinterp := Lagrange.eq_interpolate (s := s)
    (v := fun p : Int × Int => ((p.1 : Int) : ℚ)) (f := toPolyQ coeffs) hvs hdf
  have h0 : (toPolyQ coeffs).eval 0 = ((evalPoly coeffs 0 : Int) : ℚ) := by
    have := evalPoly_toPolyQ coeffs 0
    rw [Int.cast_zero] at this
    exact this
  calc SQ s
      = (Lagrange.interpolate s (fun p : Int × Int => ((p.1 : Int) : ℚ))
          (fun p => (toPolyQ coeffs).eval ((p.1 : Int) : ℚ))).eval 0 := by
        rw [Lagrange.interpolate_apply, Polynomial.eval_finset_sum]
        unfold SQ
        apply Finset.sum_congr rfl
        intro p hp
        rw [Polynomial.eval_mul, Polynomial.eval_C]
        congr 1
        · exact hy p hp
        · show (∏ q ∈ s.erase p, (-(q.1) : ℚ) / ((p.1 : ℚ) - (q.1 : ℚ))) = _
          unfold Lagrange.basis
          rw [Polynomial.eval_prod]
          apply Finset.prod_congr rfl
          intro q hq
          unfold Lagrange.basisDivisor
          rw [Polynomial.eval_mul, Polynomial.eval_C, Polynomial.eval_sub,
            Polynomial.eval_X, Polynomial.eval_C]
          show (-(q.1) : ℚ) / ((p.1 : ℚ) - (q.1 : ℚ)) =
            ((p.1 : ℚ) - (q.1 : ℚ))⁻¹ * (0 - (q.1 : ℚ))
          ring
    _ = (toPolyQ coeffs).eval 0 := by rw [← hinterp]
    _ = ((evalPoly coeffs 0 : Int) : ℚ) := h0

theorem lagrange_reconstruct (coeffs : List Int) (xs : List Int) (k : Nat)
    (hlen : xs.length = k) (hnd : xs.Nodup) (hdeg : coeffs.length ≤ k) :
    reconstruct (xs.map fun a => (a, evalPoly coeffs a)) k = .ok (evalPoly coeffs 0) := by
  have hmapinj : Function.Injective (fun a : Int => (a, evalPoly coeffs a)) := by
    intro a b hab
    injection hab
  have hplen : (xs.map fun a => (a, evalPoly coeffs a)).length = k := by
    rw [List.length_map, hlen]
  have htake : (xs.map fun a => (a, evalPoly coeffs a)).take k =
      xs.map fun a => (a, evalPoly coeffs a) :=
    List.take_of_length_le (le_of_eq hplen)
  have hfst : (xs.map fun a => (a, evalPoly coeffs a)).map Prod.fst = xs := by
    rw [List.map_map]
    exact List.map_id xs
  have hndm : (((xs.map fun a => (a, evalPoly coeffs a)).take k).map Prod.fst).Nodup := by
    rw [htake, hfst]
    exact hnd
  obtain ⟨c, hcv, hcr, hrec⟩ := reconstruct_sum (xs.map fun a => (a, evalPoly coeffs a)) k
    (le_of_eq hplen.symm) hndm
  have hmem : ∀ p ∈ ((xs.map fun a => (a, evalPoly coeffs a)).take k).toFinset,
      ∃ a ∈ xs, p = (a, evalPoly coeffs a) := by
    intro p hp
    rw [htake] at hp
    obtain ⟨a, ha, hpa⟩ := List.mem_map.mp (List.mem_toFinset.mp hp)
    exact ⟨a, ha, hpa.symm⟩
  have hSQ : SQ ((xs.map fun a => (a, evalPoly coeffs a)).take k).toFinset =
      ((evalPoly coeffs 0 : Int) : ℚ) := by
    apply SQ_sampled coeffs
    · intro a ha b hb hab
      obtain ⟨xa, -, hxa⟩ := hmem a ha
      obtain ⟨xb, -, hxb⟩ := hmem b hb
      subst hxa
      subst hxb
      simp only at hab
      rw [hab]
    · intro p hp
      obtain ⟨a, -, hpa⟩ := hmem p hp
      subst hpa
      exact (evalPoly_toPolyQ coeffs a).symm
    · have hcard : ((xs.map fun a => (a, evalPoly coeffs a)).take k).toFinset.card = k := by
        rw [htake, List.toFinset_card_of_nodup (hnd.map hmapinj), hplen]
      rw [hcard]
      exact hdeg
  rw [hrec]
  exact Rational.toBigInt_spec c hcv _ (hcr.trans hSQ)

theorem decodePoints_ok (ps : List PointEntry)
    (h : ∀ p ∈ ps, ∃ v, parseBigInt p.value p.base = .ok v) :
    ∃ ds, decodePoints ps = .ok ds := by
  induction ps with
  | nil => exact ⟨[], rfl⟩
  | cons p ps ih =>
    obtain ⟨v, hv⟩ := h p (List.mem_cons_self p ps)
    obtain ⟨ds, hds⟩ := ih (fun q hq => h q (List.mem_cons_of_mem p hq))
    exact ⟨(p.x, (v : Int)) :: ds, by simp [decodePoints, hv, hds]⟩

theorem decodePoints_take (ps : List PointEntry) :
    ∀ (k : Nat) (ds : List (Int × Int)), decodePoints ps = .ok ds →
      decodePoints (ps.take k) = .ok (ds.take k) := by
  induction ps with
  | nil =>
    intro k ds h
    have hds : ds = [] := by
      have h2 : Except.ok ([] : List (Int × Int)) = Except.ok ds := h
      injection h2 with h3
      exact h3.symm
    subst hds
    simp [decodePoints]
  | cons p ps ih =>
    intro k ds h
    cases k with
    | zero => simp [decodePoints]
    | succ k =>
      cases hv : parseBigInt p.value p.base with
      | error e => rw [decodePoints, hv] at h; cases h
      | ok y =>
        cases hrest : decodePoints ps with
        | error e => rw [decodePoints, hv, hrest] at h; cases h
        | ok rest =>
          rw [decodePoints, hv, hrest] at h
          have hds : ds = (p.x, (y : Int)) :: rest := by
            injection h with h2
            exact h2.symm
          subst hds
          rw [List.take_succ_cons, List.take_succ_cons, decodePoints, hv,
            ih k rest hrest]

theorem nodup_fst_transfer (A B : List (Int × Int)) (hAB : A.toFinset = B.toFinset)
    (hlen : A.length = B.length) (hA : ¬ (A.map Prod.fst).Nodup) :
    ¬ (B.map Prod.fst).Nodup := by
  intro hB
  have hBnd : B.Nodup := List.Nodup.of_map _ hB
  have hcardB : B.toFinset.card = B.length := List.toFinset_card_of_nodup hBnd
  have hcardA : A.toFinset.card = A.length := by
    rw [hAB, hcardB, hlen]
  have hAnd : A.Nodup := by
    have hm : Multiset.toFinset (↑A : Multiset (Int × Int)) = A.toFinset := rfl
    have : Multiset.card (↑A : Multiset (Int × Int)) = A.length := by
      simp
    exact Multiset.coe_nodup.mp
      (Multiset.toFinset_card_eq_card_iff_nodup.mp (by rw [hm, hcardA, this]))
  have hpair : ¬ ∀ a ∈ A, ∀ b ∈ A, a.1 = b.1 → a = b := by
    intro hinj
    exact hA (List.Nodup.map_on hinj hAnd)
  push_neg at hpair
  obtain ⟨a, ha, b, hb, hfst, hne⟩ := hpair
  have haB : a ∈ B := List.mem_toFinset.mp (hAB ▸ List.mem_toFinset.mpr ha)
  have hbB : b ∈ B := List.mem_toFinset.mp (hAB ▸ List.mem_toFinset.mpr hb)
  exact hne (List.inj_on_of_nodup_map hB haB hbB hfst)

/-- C1: for every polynomial of degree < k with integer coefficients (given by
its coefficient list `coeffs`, constant term first, of length ≤ k) and every
list of k distinct integer x-coordinates, the interpolation part of
`computeConstantTerm` (`reconstruct`, src/node.js lines 89-107) applied to the
k sampled points with threshold k returns exactly the polynomial's constant
term f(0) = `evalPoly coeffs 0`. -/
theorem claim_C1 (coeffs : List Int) (xs : List Int) (k : Nat)
    (hlen : xs.length = k) (hnd : xs.Nodup) (hdeg : coeffs.length ≤ k) :
    reconstruct (xs.map fun a => (a, evalPoly coeffs a)) k = .ok (evalPoly coeffs 0) :=
  lagrange_reconstruct coeffs xs k hlen hnd hdeg

/-- C1 witness: the spec's concrete scenario f(x) = x + 5 sampled at
x = 1, 2, 3 with k = 3 reconstructs the constant term 5. -/
theorem claim_C1_witness :
    reconstruct (([1, 2, 3] : List Int).map fun a => (a, evalPoly [5, 1] a)) 3 =
      .ok (evalPoly [5, 1] 0) ∧
    reconstruct [(1, 6), (2, 7), (3, 8)] 3 = .ok 5 :=
  ⟨claim_C1 [5, 1] [1, 2, 3] 3 (by decide) (by decide) (by decide), by decide⟩

/-- C2 counterexample: two test cases with k = 1 agreeing on the first point
and differing only in the trailing (excess) point's value string. With
trailing value "7" the result is `.ok 5`; with trailing value "!" the
computation fails with `InvalidDigit`, because src/node.js line 84-88 parses
every entry before the `.slice(0, k)` on line 89. The result is therefore not
independent of the content of the points beyond the first k. -/
theorem claim_C2_counterexample :
    computeConstantTerm ⟨1, [⟨1, 10, ['5']⟩, ⟨2, 10, ['7']⟩]⟩ = .ok 5 ∧
    computeConstantTerm ⟨1, [⟨1, 10, ['5']⟩, ⟨2, 10, ['!']⟩]⟩ = .error .InvalidDigit :=
  ⟨by decide, by decide⟩

/-- C2 amended: provided every supplied value string parses in its base,
`computeConstantTerm` consumes exactly the first k points in input order and
its result is independent of the trailing points; in particular, if the first
k decoded points sample an integer polynomial of degree < k at distinct
x-coordinates, the polynomial's constant term is returned regardless of the
trailing points. -/
theorem claim_C2_amended :
    (∀ (k : Nat) (ps qs : List PointEntry),
      ps.take k = qs.take k →
      (∀ p ∈ ps, ∃ v, parseBigInt p.value p.base = .ok v) →
      (∀ q ∈ qs, ∃ v, parseBigInt q.value q.base = .ok v) →
      computeConstantTerm ⟨k, ps⟩ = computeConstantTerm ⟨k, qs⟩) ∧
    (∀ (tc : TestCase) (ds : List (Int × Int)) (coeffs xs : List Int),
      decodePoints tc.points = .ok ds →
      ds.take tc.k = xs.map (fun a => (a, evalPoly coeffs a)) →
      xs.length = tc.k → xs.Nodup → coeffs.length ≤ tc.k →
      computeConstantTerm tc = .ok (evalPoly coeffs 0)) := by
  constructor
  · intro k ps qs htake hp hq
    obtain ⟨ds, hds⟩ := decodePoints_ok ps hp
    obtain ⟨es, hes⟩ := decodePoints_ok qs hq
    have h1 : decodePoints (qs.take k) = .ok (ds.take k) := by
      rw [← htake]
      exact decodePoints_take ps k ds hds
    have h2 : decodePoints (qs.take k) = .ok (es.take k) :=
      decodePoints_take qs k es hes
    have h3 : ds.take k = es.take k := by
      have h4 := h1.symm.trans h2
      injection h4
    simp only [computeConstantTerm, hds, hes]
    rw [reconstruct_take ds k, reconstruct_take es k, h3]
  · intro tc ds coeffs xs hds htk hlen hnd hdeg
    simp only [computeConstantTerm, hds]
    rw [reconstruct_take, htk]
    exact lagrange_reconstruct coeffs xs tc.k hlen hnd hdeg

/-- C2 amended witness: k = 1 with different trailing points (both
well-formed) gives the same result. -/
theorem claim_C2_amended_witness :
    computeConstantTerm ⟨1, [⟨1, 10, ['5']⟩, ⟨2, 10, ['7']⟩]⟩ =
      computeConstantTerm ⟨1, [⟨1, 10, ['5']⟩, ⟨3, 10, ['9']⟩]⟩ :=
  claim_C2_amended.1 1 [⟨1, 10, ['5']⟩, ⟨2, 10, ['7']⟩] [⟨1, 10, ['5']⟩, ⟨3, 10, ['9']⟩]
    (by decide)
    (by
      intro p hp
      rcases List.mem_cons.mp hp with h | hp2
      · exact ⟨5, by rw [h]; decide⟩
      · rcases List.mem_cons.mp hp2 with h | h3
        · exact ⟨7, by rw [h]; decide⟩
        · exact absurd h3 (List.not_mem_nil p))
    (by
      intro p hp
      rcases List.mem_cons.mp hp with h | hp2
      · exact ⟨5, by rw [h]; decide⟩
      · rcases List.mem_cons.mp hp2 with h | h3
        · exact ⟨9, by rw [h]; decide⟩
        · exact absurd h3 (List.not_mem_nil p))

/-- C3 counterexample: a test case whose first k = 2 points share the
x-coordinate 1 but whose second value string is malformed fails with
`InvalidDigit`, not `DivisionByZero`: the eager parse of all value strings
(src/node.js lines 84-88) precedes the interpolation, so the claim as stated
(every input with equal x-coordinates among the first k fails with
`DivisionByZero`) is false. -/
theorem claim_C3_counterexample :
    computeConstantTerm ⟨2, [⟨1, 10, ['5']⟩, ⟨1, 10, ['!']⟩]⟩ =
      .error .InvalidDigit := by
  decide

/-- C3 amended: a duplicated x-coordinate among the first k points (stated as:
the list of those x-coordinates has a repetition, which is the same as having
two entries i ≠ j with equal x) makes `reconstruct` fail with
`DivisionByZero`, and makes `computeConstantTerm` fail with `DivisionByZero`
provided all value strings decode; and the `Rational` constructor always
rejects denominator 0 with `DivisionByZero`. -/
theorem claim_C3_amended :
    (∀ (points : List (Int × Int)) (k : Nat), k ≤ points.length →
      ¬ ((points.take k).map Prod.fst).Nodup →
      reconstruct points k = .error .DivisionByZero) ∧
    (∀ (tc : TestCase) (ds : List (Int × Int)), decodePoints tc.points = .ok ds →
      tc.k ≤ ds.length → ¬ ((ds.take tc.k).map Prod.fst).Nodup →
      computeConstantTerm tc = .error .DivisionByZero) ∧
    (∀ num : Int, Rational.make num 0 = .error .DivisionByZero) := by
  refine ⟨fun points k h1 h2 => reconstruct_dup_err points k h1 h2, ?_,
    Rational.make_zero_den⟩
  intro tc ds hds hk hnd
  simp only [computeConstantTerm, hds]
  exact reconstruct_dup_err ds tc.k hk hnd

/-- C3 amended witness: two decoded points with the same x-coordinate and
k = 2 yield DivisionByZero, and a Rational with denominator 0 is rejected. -/
theorem claim_C3_amended_witness :
    reconstruct [(1, 5), (1, 7)] 2 = .error .DivisionByZero ∧
    Rational.make 3 0 = .error .DivisionByZero :=
  ⟨claim_C3_amended.1 [(1, 5), (1, 7)] 2 (by decide) (by decide),
    claim_C3_amended.2.2 3⟩

/-- C4: `toBigInt` fails with `NonIntegralResult` precisely when the stored
denominator (which the `Rational` invariant keeps reduced) is not 1, and
otherwise returns the numerator unchanged — it never rounds or truncates. -/
theorem claim_C4 (r : Rational) :
    (r.toBigInt = .error .NonIntegralResult ↔ r.d ≠ 1) ∧
    (r.d = 1 → r.toBigInt = .ok r.n) := by
  by_cases hd : r.d = 1 <;> simp [Rational.toBigInt, hd]

/-- C4 witness: 5/2 is rejected as non-integral, 5/1 narrows to 5. -/
theorem claim_C4_witness :
    Rational.toBigInt ⟨5, 2⟩ = .error .NonIntegralResult ∧
    Rational.toBigInt ⟨5, 1⟩ = .ok 5 :=
  ⟨(claim_C4 ⟨5, 2⟩).1.mpr (by decide), (claim_C4 ⟨5, 1⟩).2 rfl⟩

/-- C5: every `Rational` produced by the constructor (on a nonzero
denominator), by `add`, or by `multiply` of valid rationals satisfies the
reduction invariant `Rational.Valid` (positive denominator and
gcd(|numerator|, denominator) = 1), and a valid rational whose numerator is 0
is exactly the canonical zero (0, 1). -/
theorem claim_C5 :
    (∀ num den : Int, den ≠ 0 → ∃ r, Rational.make num den = .ok r ∧ r.Valid) ∧
    (∀ a b : Rational, a.Valid → b.Valid → ∃ c, a.add b = .ok c ∧ c.Valid) ∧
    (∀ a b : Rational, a.Valid → b.Valid → ∃ c, a.multiply b = .ok c ∧ c.Valid) ∧
    (∀ r : Rational, r.Valid → r.n = 0 → r = ⟨0, 1⟩) := by
  refine ⟨?_, ?_, ?_, Rational.valid_num_zero⟩
  · intro num den hd
    obtain ⟨r, h1, h2, -, -⟩ := Rational.make_spec num den hd
    exact ⟨r, h1, h2⟩
  · intro a b ha hb
    obtain ⟨c, h1, h2, -⟩ := Rational.add_spec a b ha hb
    exact ⟨c, h1, h2⟩
  · intro a b ha hb
    obtain ⟨c, h1, h2, -⟩ := Rational.multiply_spec a b ha hb
    exact ⟨c, h1, h2⟩

/-- C5 witness: constructing 6/(-4) succeeds and satisfies the invariant
(the stored value is the reduced, sign-normalized -3/2). -/
theorem claim_C5_witness :
    ∃ r, Rational.make 6 (-4) = .ok r ∧ r.Valid :=
  claim_C5.1 6 (-4) (by decide)

/-- C6: for every string of digits valid for a radix in [2, 36], `parseBigInt`
returns exactly the Horner evaluation (result := result × radix + digit,
left to right) of the digit values, and the spec's concrete radix checks
hold: parse "ff" base 16 = 255, parse "1010" base 2 = 10,
parse "z" base 36 = 35. -/
theorem claim_C6 (s : List Char) (base : Nat)
    (_h2 : 2 ≤ base) (_h36 : base ≤ 36)
    (hvalid : ∀ c ∈ s, isGoodDigit base c = true) :
    parseBigInt s base = .ok (specHorner s base) ∧
    parseBigInt ['f', 'f'] 16 = .ok 255 ∧
    parseBigInt ['1', '0', '1', '0'] 2 = .ok 10 ∧
    parseBigInt ['z'] 36 = .ok 35 := by
  refine ⟨?_, by decide, by decide, by decide⟩
  have hvalid' : ∀ c ∈ s, ∃ d, digitOfChar c = some d ∧ d < base := by
    intro c hc
    have hg := hvalid c hc
    cases hdig : digitOfChar c with
    | none => simp [isGoodDigit, hdig] at hg
    | some d =>
      simp [isGoodDigit, hdig] at hg
      exact ⟨d, rfl, hg⟩
  exact parseLoop_ok base s 0 hvalid'

/-- C6 witness: the Horner theorem applied to "ff" at radix 16. -/
theorem claim_C6_witness :
    parseBigInt ['f', 'f'] 16 = .ok (specHorner ['f', 'f'] 16) :=
  (claim_C6 ['f', 'f'] 16 (by decide) (by decide) (by decide)).1

/-- C7 counterexample: the string "z!" at radix 10 contains the character '!'
which is outside [0-9a-z] after case-folding, yet `parseBigInt` fails with
`DigitOutOfRange` (raised at the earlier character 'z'), not `InvalidDigit`:
the claimed biconditional "fails with InvalidDigit exactly when some character
is outside the set" is false, because the error is decided by the first
offending character only. -/
theorem claim_C7_counterexample :
    digitOfChar '!' = none ∧
    parseBigInt ['z', '!'] 10 ≠ .error .InvalidDigit ∧
    parseBigInt ['z', '!'] 10 = .error .DigitOutOfRange :=
  ⟨rfl, by decide, by decide⟩

/-- C7 amended: the outcome of `parseBigInt` is decided by the first offending
character (the first character that is not a digit admissible for the radix),
scanning left to right: `InvalidDigit` exactly when that character is outside
[0-9a-z] after case-folding, `DigitOutOfRange` exactly when it is a recognized
digit whose value is ≥ the radix, and success exactly when no character
offends — so invalid digits are never silently skipped. -/
theorem claim_C7_amended (s : List Char) (base : Nat) :
    (parseBigInt s base = .error .InvalidDigit ↔
      ∃ c, s.find? (fun c => ! isGoodDigit base c) = some c ∧ digitOfChar c = none) ∧
    (parseBigInt s base = .error .DigitOutOfRange ↔
      ∃ c d, s.find? (fun c => ! isGoodDigit base c) = some c ∧
        digitOfChar c = some d ∧ base ≤ d) ∧
    ((∃ v, parseBigInt s base = .ok v) ↔
      s.find? (fun c => ! isGoodDigit base c) = none) :=
  parseLoop_classify base s 0

/-- C7 amended witness: "f" at radix 10 fails with DigitOutOfRange ('f' is the
first offending character, a recognized digit of value 15 ≥ 10). -/
theorem claim_C7_amended_witness :
    parseBigInt ['f'] 10 = .error .DigitOutOfRange :=
  (claim_C7_amended ['f'] 10).2.1.mpr ⟨'f', 15, by decide, by decide, by decide⟩

/-- C8: permuting the point list while keeping the set of the first k selected
points unchanged does not change the result of `reconstruct`. -/
theorem claim_C8 (points points' : List (Int × Int)) (k : Nat)
    (hperm : points.Perm points') (hk : k ≤ points.length)
    (hsel : (points.take k).toFinset = (points'.take k).toFinset) :
    reconstruct points k = reconstruct points' k := by
  have hk' : k ≤ points'.length := hperm.length_eq ▸ hk
  have hlenA : (points.take k).length = k := by
    rw [List.length_take]
    exact inf_eq_left.mpr hk
  have hlenB : (points'.take k).length = k := by
    rw [List.length_take]
    exact inf_eq_left.mpr hk'
  by_cases hnd : ((points.take k).map Prod.fst).Nodup
  · have hnd' : ((points'.take k).map Prod.fst).Nodup := by
      by_contra h
      exact nodup_fst_transfer (points'.take k) (points.take k) hsel.symm
        (hlenB.trans hlenA.symm) h hnd
    obtain ⟨c, hcv, hcr, hrec⟩ := reconstruct_sum points k hk hnd
    obtain ⟨c', hcv', hcr', hrec'⟩ := reconstruct_sum points' k hk' hnd'
    have hcc : c = c' := Rational.valid_inj c c' hcv hcv' (by rw [hcr, hcr', hsel])
    rw [hrec, hrec', hcc]
  · have hnd' : ¬ ((points'.take k).map Prod.fst).Nodup :=
      nodup_fst_transfer (points.take k) (points'.take k) hsel
        (hlenA.trans hlenB.symm) hnd
    rw [reconstruct_dup_err points k hk hnd, reconstruct_dup_err points' k hk' hnd']

/-- C8 witness: swapping the two selected points (k = 2) leaves the result
unchanged. -/
theorem claim_C8_witness :
    reconstruct [(1, 6), (2, 7), (3, 8)] 2 = reconstruct [(2, 7), (1, 6), (3, 8)] 2 :=
  claim_C8 [(1, 6), (2, 7), (3, 8)] [(2, 7), (1, 6), (3, 8)] 2
    (by decide) (by decide) (by decide)

/-- C9: for every radix, parsing the empty digit string succeeds and returns
the Horner accumulator's initial value 0, rather than failing. -/
theorem claim_C9 (base : Nat) : parseBigInt [] base = .ok 0 := rfl

/-- C10 counterexample: a test case with k = 0 and a single malformed point
value fails with `InvalidDigit` instead of returning 0: every value string is
parsed (src/node.js lines 84-88) even though the threshold consumes no
points, so the claim as stated (`k = 0` always returns 0 without error) is
false. -/
theorem claim_C10_counterexample :
    computeConstantTerm ⟨0, [⟨1, 10, ['!']⟩]⟩ = .error .InvalidDigit := by
  decide

/-- C10 amended: if k = 0 and every supplied value string parses in its base,
`computeConstantTerm` returns 0 without raising any error: no points enter
the interpolation and the accumulator 0/1 narrows to the integer 0. -/
theorem claim_C10_amended (tc : TestCase) (hk : tc.k = 0)
    (hparse : ∀ p ∈ tc.points, ∃ v, parseBigInt p.value p.base = .ok v) :
    computeConstantTerm tc = .ok 0 := by
  obtain ⟨ds, hds⟩ := decodePoints_ok tc.points hparse
  simp only [computeConstantTerm, hds, hk]
  rfl

/-- C10 amended witness: k = 0 with one well-formed point returns 0. -/
theorem claim_C10_amended_witness :
    computeConstantTerm ⟨0, [⟨1, 10, ['7']⟩]⟩ = .ok 0 :=
  claim_C10_amended ⟨0, [⟨1, 10, ['7']⟩]⟩ rfl
    (by
      intro p hp
      rcases List.mem_cons.mp hp with h | h3
      · exact ⟨7, by rw [h]; decide⟩
      · exact absurd h3 (List.not_mem_nil p))
